import Mathlib

/-
Verification of the Blahut-Arimoto core from `src/backend/bit_baa_fast.cc`.

The C++ `Float` type is modelled as the real numbers; the external channel
transition model `get_bit_transition_prob_fast` (an external collaborator of
this core) is an explicit function parameter.  Codewords are opaque
identifiers.  C++ loops become folds or indexed sums over ranges; C++
undefined behaviour (the stride-2 iterator of `compute_all_log_Wjk_den`
overrunning `end()` on odd-length input, `max_element` on an empty range)
is modelled by an `Option` result being `none`.
-/

namespace BitBAA

/-- A codeword is an opaque identifier; only identity and position matter. -/
abbrev CodeWord := ℕ

/-- The external transition model: `P t r` is the probability of receiving
`r` when `t` was transmitted (`get_bit_transition_prob_fast`). -/
abbrev TransitionModel := CodeWord → CodeWord → ℝ

/-- Model of `compute_Pjk_row` from bit_baa_fast.cc: the vector of transition
probabilities from a fixed transmitted codeword to every received one. -/
noncomputable def compute_Pjk_row (P : TransitionModel) (transmitted : CodeWord)
    (received : List CodeWord) : List ℝ :=
  received.map (fun r => P transmitted r)

/-- Model of `compute_Pjk_col` from bit_baa_fast.cc: the vector of transition
probabilities into a fixed received codeword from every transmitted one. -/
noncomputable def compute_Pjk_col (P : TransitionModel) (transmitted : List CodeWord)
    (received : CodeWord) : List ℝ :=
  transmitted.map (fun t => P t received)

/-- Model of `compute_Wjk_den` from bit_baa_fast.cc: the inner product of the
probability column of one received codeword with the distribution `Q_i`
(`std::inner_product` over the column, reading `Q_i` positionally). -/
noncomputable def compute_Wjk_den (P : TransitionModel) (transmitted : List CodeWord)
    (received : CodeWord) (Q_i : List ℝ) : ℝ :=
  (List.zipWith (· * ·) (compute_Pjk_col P transmitted received) Q_i).sum

/-- Model of `compute_all_log_Wjk_den` from bit_baa_fast.cc.  The C++ loop advances
the received iterator two at a time, reads the element one past the current
position, and pushes `log((den1 + den2) / 2)` twice per iteration; on an
odd-length `received` the iterator steps over `end()` and reads out of
bounds, modelled here as `none`. -/
noncomputable def compute_all_log_Wjk_den (P : TransitionModel) (transmitted : List CodeWord)
    (received : List CodeWord) (Q_i : List ℝ) : Option (List ℝ) :=
  match received with
  | [] => some []
  | [_] => none
  | r1 :: r2 :: rest =>
    let den1 := compute_Wjk_den P transmitted r1 Q_i
    let den2 := compute_Wjk_den P transmitted r2 Q_i
    let entry := Real.log ((den1 + den2) / 2)
    (compute_all_log_Wjk_den P transmitted rest Q_i).map (fun l => entry :: entry :: l)

/-- Model of `compute_log_alpha_k` from bit_baa_fast.cc: the loop over the probability
row accumulating `P_jk * (log Q_k + log P_jk - log_den)`, skipping entries
with `P_jk < 1e-12`. -/
noncomputable def compute_log_alpha_k (P : TransitionModel) (transmitted : CodeWord)
    (received : List CodeWord) (Q_k : ℝ) (log_W_jk_den : List ℝ) : ℝ :=
  let log_Q_k := Real.log Q_k
  let probs_row := compute_Pjk_row P transmitted received
  (List.range probs_row.length).foldl (fun log_alpha i =>
    let P_jk := probs_row.getD i 0
    let log_den := log_W_jk_den.getD i 0
    if P_jk < 1e-12 then log_alpha
    else log_alpha + P_jk * (log_Q_k + Real.log P_jk - log_den)) 0

/-- Model of `compute_all_log_alpha_k` from bit_baa_fast.cc: one log-alpha per
transmitted codeword, pairing `transmitted` with `Q_i` positionally. -/
noncomputable def compute_all_log_alpha_k (P : TransitionModel) (transmitted : List CodeWord)
    (received : List CodeWord) (Q_i : List ℝ) (log_W_jk_den : List ℝ) : List ℝ :=
  (List.range transmitted.length).map (fun i =>
    compute_log_alpha_k P (transmitted.getD i 0) received (Q_i.getD i 0) log_W_jk_den)

/-- Model of `do_full_baa_step` from bit_baa_fast.cc: denominators, log-alphas,
max-subtraction stabilization, exponentiation, and normalization by the
alpha sum.  `max_element` over an empty alpha vector is undefined behaviour
in the source, modelled by `none` (via `List.max?`). -/
noncomputable def do_full_baa_step (P : TransitionModel) (transmitted : List CodeWord)
    (received : List CodeWord) (Q_i : List ℝ) : Option (List ℝ) :=
  (compute_all_log_Wjk_den P transmitted received Q_i).bind (fun log_W_jk =>
    let log_alphas := compute_all_log_alpha_k P transmitted received Q_i log_W_jk
    match log_alphas.max? with
    | none => none
    | some max_log_alpha =>
      let alphas := log_alphas.map (fun log_alpha => Real.exp (log_alpha - max_log_alpha))
      let alpha_sum := alphas.sum
      some (alphas.map (fun alpha => alpha / alpha_sum)))

/-- Model of `compute_bit_rate_efficient` from bit_baa_fast.cc: the row-major rate
loop, consuming precomputed log denominators, skipping `P_jk < 1e-20`. -/
noncomputable def compute_bit_rate_efficient (P : TransitionModel) (transmitted : List CodeWord)
    (received : List CodeWord) (log_W_jk_den : List ℝ) (Q_i : List ℝ) : ℝ :=
  (List.range transmitted.length).foldl (fun rate i =>
    let probs_row := compute_Pjk_row P (transmitted.getD i 0) received
    let Qk := Q_i.getD i 0
    (List.range received.length).foldl (fun rate j =>
      let log_den := log_W_jk_den.getD j 0
      let P_jk := probs_row.getD j 0
      if P_jk < 1e-20 then rate
      else rate + Qk * P_jk * (Real.log P_jk - log_den)) rate) 0

/-- The dense denominator of `compute_rate` in bit_baa_fast.cc:
`denominator[j] = Σ_i prob_table[i][j] * Q_i[i]`. -/
noncomputable def denom (P : TransitionModel) (transmitted : List CodeWord)
    (received : List CodeWord) (Q_i : List ℝ) (j : ℕ) : ℝ :=
  ∑ i ∈ Finset.range transmitted.length,
    P (transmitted.getD i 0) (received.getD j 0) * Q_i.getD i 0

/-- Model of `compute_rate` from bit_baa_fast.cc: the dense reference rate.  It skips
`prob_table[k][j] < 1e-30` and clamps a denominator below `1e-50` to `1e-50`
before taking its log (the C++ also clamps NaN, which has no counterpart in
the real model; the in-place clamp of `denominator[j]` is idempotent, so a
local clamp at each use is equivalent). -/
noncomputable def compute_rate (P : TransitionModel) (transmitted : List CodeWord)
    (received : List CodeWord) (Q_i : List ℝ) : ℝ :=
  (List.range transmitted.length).foldl (fun rate k =>
    (List.range received.length).foldl (fun rate j =>
      let p := P (transmitted.getD k 0) (received.getD j 0)
      if p < 1e-30 then rate
      else
        let den := denom P transmitted received Q_i j
        let den := if den < 1e-50 then 1e-50 else den
        rate + Q_i.getD k 0 * p * Real.log (p / den)) rate) 0

/-- The `j`-th summand of the `compute_log_alpha_k` loop, as a function of the
loop index: zero when the transition probability is below `1e-12`. -/
noncomputable def alphaTerm (P : TransitionModel) (t : CodeWord) (received : List CodeWord)
    (Q_k : ℝ) (log_W_jk_den : List ℝ) (j : ℕ) : ℝ :=
  if P t (received.getD j 0) < 1e-12 then 0
  else P t (received.getD j 0) *
    (Real.log Q_k + Real.log (P t (received.getD j 0)) - log_W_jk_den.getD j 0)

/-- The `(i, j)`-th summand of the `compute_bit_rate_efficient` loops: zero
when the transition probability is below `1e-20`. -/
noncomputable def effTerm (P : TransitionModel) (transmitted received : List CodeWord)
    (log_W_jk_den Q_i : List ℝ) (i j : ℕ) : ℝ :=
  if P (transmitted.getD i 0) (received.getD j 0) < 1e-20 then 0
  else Q_i.getD i 0 * P (transmitted.getD i 0) (received.getD j 0) *
    (Real.log (P (transmitted.getD i 0) (received.getD j 0)) - log_W_jk_den.getD j 0)

/-- The `(k, j)`-th summand of the `compute_rate` loops: zero when the
transition probability is below `1e-30`, otherwise using the denominator
clamped to the `1e-50` floor. -/
noncomputable def denseTerm (P : TransitionModel) (transmitted received : List CodeWord)
    (Q_i : List ℝ) (k j : ℕ) : ℝ :=
  if P (transmitted.getD k 0) (received.getD j 0) < 1e-30 then 0
  else Q_i.getD k 0 * P (transmitted.getD k 0) (received.getD j 0) *
    Real.log (P (transmitted.getD k 0) (received.getD j 0) /
      max (denom P transmitted received Q_i j) 1e-50)

/- Helper lemmas bridging the loop-style definitions and indexed sums. -/

lemma list_map_range_sum (g : ℕ → ℝ) (n : ℕ) :
    ((List.range n).map g).sum = ∑ j ∈ Finset.range n, g j := by
  induction n with
  | zero => simp
  | succ n ih => rw [List.range_succ, Finset.sum_range_succ]; simp [ih]

lemma foldl_body_add (F : ℝ → ℕ → ℝ) (h : ℕ → ℝ) (l : List ℕ)
    (hF : ∀ a : ℝ, ∀ i ∈ l, F a i = a + h i) (a : ℝ) :
    l.foldl F a = a + (l.map h).sum := by
  induction l generalizing a with
  | nil => simp
  | cons x t ih =>
    rw [List.foldl_cons, hF a x (List.mem_cons_self x t),
      ih (fun b i hi => hF b i (List.mem_cons_of_mem x hi))]
    simp; ring

lemma getD_map' {α β : Type*} (l : List α) (f : α → β) (d : α) (d' : β) {j : ℕ}
    (h : j < l.length) : (l.map f).getD j d' = f (l.getD j d) := by
  rw [List.getD_eq_getElem?_getD, List.getD_eq_getElem?_getD, List.getElem?_map,
    List.getElem?_eq_getElem h]
  rfl

lemma getD_map_range (g : ℕ → ℝ) {n i : ℕ} (h : i < n) :
    ((List.range n).map g).getD i 0 = g i := by
  rw [List.getD_eq_getElem?_getD, List.getElem?_map,
    List.getElem?_eq_getElem (by simpa using h)]
  simp

lemma sum_product_erase (f : ℕ → ℕ → ℝ) (s t : Finset ℕ) (a b : ℕ) (h : f a b = 0) :
    ∑ p ∈ (s ×ˢ t).erase (a, b), f p.1 p.2 = ∑ p ∈ s ×ˢ t, f p.1 p.2 := by
  apply Finset.sum_erase
  exact h

lemma clamp_eq_max (x c : ℝ) : (if x < c then c else x) = max x c := by
  rcases lt_or_le x c with h | h
  · simp [h, max_eq_right (le_of_lt h)]
  · simp [not_lt.mpr h, max_eq_left h]

/-- The alpha loop of `compute_log_alpha_k` is the sum of its per-index
terms. -/
lemma compute_log_alpha_k_eq_sum (P : TransitionModel) (t : CodeWord)
    (received : List CodeWord) (Q_k : ℝ) (log_W_jk_den : List ℝ) :
    compute_log_alpha_k P t received Q_k log_W_jk_den =
      ∑ j ∈ Finset.range received.length, alphaTerm P t received Q_k log_W_jk_den j := by
  unfold compute_log_alpha_k
  dsimp only
  simp only [compute_Pjk_row, List.length_map]
  rw [foldl_body_add _ (alphaTerm P t received Q_k log_W_jk_den) _ ?hF 0,
    list_map_range_sum, zero_add]
  intro a i hi
  rw [List.mem_range] at hi
  dsimp only
  rw [getD_map' received _ 0 0 hi]
  unfold alphaTerm
  rcases lt_or_le (P t (received.getD i 0)) 1e-12 with h | h
  · rw [if_pos h, if_pos h, add_zero]
  · rw [if_neg (not_lt.mpr h), if_neg (not_lt.mpr h)]

/-- The entries of `compute_all_log_alpha_k` are `compute_log_alpha_k` at the
positionally matching transmitted codeword and prior. -/
lemma compute_all_log_alpha_k_getD (P : TransitionModel) (transmitted received : List CodeWord)
    (Q_i log_W_jk_den : List ℝ) {i : ℕ} (h : i < transmitted.length) :
    (compute_all_log_alpha_k P transmitted received Q_i log_W_jk_den).getD i 0 =
      compute_log_alpha_k P (transmitted.getD i 0) received (Q_i.getD i 0) log_W_jk_den := by
  unfold compute_all_log_alpha_k
  exact getD_map_range _ h

/-- The row-major rate loop of `compute_bit_rate_efficient` is the double sum
of its per-pair terms. -/
lemma compute_bit_rate_efficient_eq_sum (P : TransitionModel)
    (transmitted received : List CodeWord) (log_W_jk_den Q_i : List ℝ) :
    compute_bit_rate_efficient P transmitted received log_W_jk_den Q_i =
      ∑ i ∈ Finset.range transmitted.length, ∑ j ∈ Finset.range received.length,
        effTerm P transmitted received log_W_jk_den Q_i i j := by
  unfold compute_bit_rate_efficient
  rw [foldl_body_add _
    (fun i => ∑ j ∈ Finset.range received.length, effTerm P transmitted received log_W_jk_den Q_i i j)
    _ ?hFo 0, list_map_range_sum, zero_add]
  intro a i hi
  rw [List.mem_range] at hi
  rw [foldl_body_add _ (effTerm P transmitted received log_W_jk_den Q_i i) _ ?hFi a,
    list_map_range_sum]
  intro b j hj
  rw [List.mem_range] at hj
  dsimp only
  simp only [compute_Pjk_row]
  rw [getD_map' received _ 0 0 hj]
  unfold effTerm
  rcases lt_or_le (P (transmitted.getD i 0) (received.getD j 0)) 1e-20 with h | h
  · rw [if_pos h, if_pos h, add_zero]
  · rw [if_neg (not_lt.mpr h), if_neg (not_lt.mpr h)]

/-- The dense rate loop of `compute_rate` is the double sum of its per-pair
terms, with the denominator clamped to the `1e-50` floor. -/
lemma compute_rate_eq_sum (P : TransitionModel) (transmitted received : List CodeWord)
    (Q_i : List ℝ) :
    compute_rate P transmitted received Q_i =
      ∑ k ∈ Finset.range transmitted.length, ∑ j ∈ Finset.range received.length,
        denseTerm P transmitted received Q_i k j := by
  unfold compute_rate
  rw [foldl_body_add _
    (fun k => ∑ j ∈ Finset.range received.length, denseTerm P transmitted received Q_i k j)
    _ ?hFo 0, list_map_range_sum, zero_add]
  intro a k _
  rw [foldl_body_add _ (denseTerm P transmitted received Q_i k) _ ?hFi a,
    list_map_range_sum]
  intro b j _
  dsimp only
  unfold denseTerm
  rcases lt_or_le (P (transmitted.getD k 0) (received.getD j 0)) 1e-30 with h | h
  · rw [if_pos h, if_pos h, add_zero]
  · rw [if_neg (not_lt.mpr h), if_neg (not_lt.mpr h), clamp_eq_max]

/-- Rewriting of `std::inner_product` of a mapped column with `Q_i` as an indexed sum,
assuming the positional alignment `len(Q) == len(transmitted)`. -/
lemma zipWith_mul_map_sum (f : CodeWord → ℝ) :
    ∀ (T : List CodeWord) (Q : List ℝ), Q.length = T.length →
      (List.zipWith (· * ·) (T.map f) Q).sum =
        ∑ i ∈ Finset.range T.length, f (T.getD i 0) * Q.getD i 0 := by
  intro T
  induction T with
  | nil => intro Q h; simp
  | cons t T ih =>
    intro Q hQ
    cases Q with
    | nil => simp at hQ
    | cons q Q =>
      simp only [List.map_cons, List.zipWith_cons_cons, List.sum_cons, List.length_cons]
      rw [Finset.sum_range_succ']
      simp only [List.getD_cons_succ, List.getD_cons_zero]
      rw [ih Q (by simpa using hQ)]
      ring

/-- Agreement: `compute_Wjk_den` at the `j`-th received codeword agrees with the dense
denominator of `compute_rate` when `Q_i` aligns with `transmitted`. -/
lemma compute_Wjk_den_eq_denom (P : TransitionModel) (transmitted received : List CodeWord)
    (Q_i : List ℝ) (hQ : Q_i.length = transmitted.length) (j : ℕ) :
    compute_Wjk_den P transmitted (received.getD j 0) Q_i = denom P transmitted received Q_i j := by
  unfold compute_Wjk_den compute_Pjk_col denom
  exact zipWith_mul_map_sum (fun t => P t (received.getD j 0)) transmitted Q_i hQ

/-- On an odd-length received list the stride-2 loop of
`compute_all_log_Wjk_den` overruns the end iterator: the result is `none`. -/
lemma wjk_none (P : TransitionModel) (transmitted : List CodeWord)
    (received : List CodeWord) (Q_i : List ℝ) (h : ¬ Even received.length) :
    compute_all_log_Wjk_den P transmitted received Q_i = none := by
  induction received, Q_i using compute_all_log_Wjk_den.induct P transmitted with
  | case1 Q => simp at h
  | case2 Q x => rw [compute_all_log_Wjk_den]
  | case3 Q r1 r2 rest ih =>
    have hr : ¬ Even rest.length := by
      simp only [List.length_cons] at h
      simpa [parity_simps] using h
    rw [compute_all_log_Wjk_den, ih hr]
    rfl

/-- On an even-length received list, `compute_all_log_Wjk_den` succeeds, has
the length of `received`, and each pair of entries `2m, 2m+1` holds the log
of the averaged pair of denominators. -/
lemma wjk_even_spec (P : TransitionModel) (transmitted : List CodeWord)
    (received : List CodeWord) (Q_i : List ℝ) (h : Even received.length) :
    ∃ l, compute_all_log_Wjk_den P transmitted received Q_i = some l ∧
      l.length = received.length ∧
      ∀ m : ℕ, 2 * m + 1 < received.length →
        l.getD (2 * m) 0 =
          Real.log ((compute_Wjk_den P transmitted (received.getD (2 * m) 0) Q_i +
            compute_Wjk_den P transmitted (received.getD (2 * m + 1) 0) Q_i) / 2) ∧
        l.getD (2 * m + 1) 0 =
          Real.log ((compute_Wjk_den P transmitted (received.getD (2 * m) 0) Q_i +
            compute_Wjk_den P transmitted (received.getD (2 * m + 1) 0) Q_i) / 2) := by
  induction received, Q_i using compute_all_log_Wjk_den.induct P transmitted with
  | case1 Q =>
    exact ⟨[], rfl, rfl, fun m hm => absurd hm (by simp)⟩
  | case2 Q x => simp at h
  | case3 Q r1 r2 rest ih =>
    have hr : Even rest.length := by
      simp only [List.length_cons] at h
      simpa [parity_simps] using h
    obtain ⟨l, hl, hlen, hspec⟩ := ih hr
    refine ⟨_ :: _ :: l, by rw [compute_all_log_Wjk_den, hl]; rfl, by simp [hlen], ?_⟩
    intro m hm
    cases m with
    | zero => exact ⟨rfl, rfl⟩
    | succ m' =>
      have e2 : 2 * (m' + 1) = 2 * m' + 1 + 1 := by ring
      have hm' : 2 * m' + 1 < rest.length := by
        simp only [List.length_cons] at hm
        omega
      rw [e2]
      simp only [List.getD_cons_succ]
      exact hspec m' hm'

/-- Splitting the received list at an even position commutes with
`compute_all_log_Wjk_den`: the full result is the concatenation of the two
partial results (all in the `Option` monad). -/
lemma wjk_append (P : TransitionModel) (transmitted : List CodeWord)
    (A B : List CodeWord) (Q_i : List ℝ) (hA : Even A.length) :
    compute_all_log_Wjk_den P transmitted (A ++ B) Q_i =
      (compute_all_log_Wjk_den P transmitted A Q_i).bind (fun l1 =>
        (compute_all_log_Wjk_den P transmitted B Q_i).map (fun l2 => l1 ++ l2)) := by
  induction A, Q_i using compute_all_log_Wjk_den.induct P transmitted with
  | case1 Q =>
    rw [List.nil_append]
    cases hB : compute_all_log_Wjk_den P transmitted B Q with
    | none => rfl
    | some l => simp [compute_all_log_Wjk_den]
  | case2 Q x => simp at hA
  | case3 Q r1 r2 rest ih =>
    have hr : Even rest.length := by
      simp only [List.length_cons] at hA
      simpa [parity_simps] using hA
    rw [List.cons_append, List.cons_append, compute_all_log_Wjk_den, ih hr,
      compute_all_log_Wjk_den]
    cases ht : compute_all_log_Wjk_den P transmitted rest Q with
    | none => rfl
    | some l1 =>
      cases hB : compute_all_log_Wjk_den P transmitted B Q with
      | none => rfl
      | some l2 => rfl

/-- When `Q_i` aligns with `transmitted` and each adjacent pair of received
codewords has equal denominators, every entry of `compute_all_log_Wjk_den`
is the log of that received codeword's own denominator. -/
lemma wjk_getD_eq_log_denom (P : TransitionModel) (transmitted received : List CodeWord)
    (Q_i : List ℝ) (hQ : Q_i.length = transmitted.length) (hR : Even received.length)
    (hpair : ∀ m : ℕ, 2 * m + 1 < received.length →
      denom P transmitted received Q_i (2 * m) = denom P transmitted received Q_i (2 * m + 1))
    {l : List ℝ} (hl : compute_all_log_Wjk_den P transmitted received Q_i = some l)
    {j : ℕ} (hj : j < received.length) :
    l.getD j 0 = Real.log (denom P transmitted received Q_i j) := by
  obtain ⟨l', hl', hlen, hspec⟩ := wjk_even_spec P transmitted received Q_i hR
  rw [hl] at hl'
  obtain rfl : l = l' := by injection hl'
  rcases Nat.even_or_odd j with he | ho
  · obtain ⟨m, rfl⟩ := he
    have hmm : m + m = 2 * m := (two_mul m).symm
    rw [hmm] at hj ⊢
    have hb : 2 * m + 1 < received.length := by
      rcases hR with ⟨k, hk⟩; omega
    rw [(hspec m hb).1, compute_Wjk_den_eq_denom P transmitted received Q_i hQ,
      compute_Wjk_den_eq_denom P transmitted received Q_i hQ, ← hpair m hb,
      add_self_div_two]
  · obtain ⟨m, rfl⟩ := ho
    rw [(hspec m hj).2, compute_Wjk_den_eq_denom P transmitted received Q_i hQ,
      compute_Wjk_den_eq_denom P transmitted received Q_i hQ, hpair m hj,
      add_self_div_two]

/-- Under symmetric pair denominators, no probabilities in the dead band
between the two epsilon thresholds, and denominators at or above the floor,
the row-major rate (fed with the pair-averaged log denominators) agrees
exactly with the dense reference rate. -/
lemma rate_eff_eq_rate_dense (P : TransitionModel) (transmitted received : List CodeWord)
    (Q_i : List ℝ) (w : List ℝ)
    (hQ : Q_i.length = transmitted.length) (hR : Even received.length)
    (hw : compute_all_log_Wjk_den P transmitted received Q_i = some w)
    (hpair : ∀ m : ℕ, 2 * m + 1 < received.length →
      denom P transmitted received Q_i (2 * m) = denom P transmitted received Q_i (2 * m + 1))
    (heps : ∀ i j : ℕ, i < transmitted.length → j < received.length →
      P (transmitted.getD i 0) (received.getD j 0) < 1e-30 ∨
        1e-20 ≤ P (transmitted.getD i 0) (received.getD j 0))
    (hden : ∀ j : ℕ, j < received.length → 1e-50 ≤ denom P transmitted received Q_i j) :
    compute_bit_rate_efficient P transmitted received w Q_i =
      compute_rate P transmitted received Q_i := by
  rw [compute_bit_rate_efficient_eq_sum, compute_rate_eq_sum]
  refine Finset.sum_congr rfl (fun i hi => Finset.sum_congr rfl (fun j hj => ?_))
  rw [Finset.mem_range] at hi hj
  unfold effTerm denseTerm
  rcases heps i j hi hj with h30 | h20
  · rw [if_pos h30, if_pos (lt_trans h30 (by norm_num))]
  · have hn20 : ¬ P (transmitted.getD i 0) (received.getD j 0) < 1e-20 := not_lt.mpr h20
    have hn30 : ¬ P (transmitted.getD i 0) (received.getD j 0) < 1e-30 :=
      not_lt.mpr (le_trans (by norm_num) h20)
    rw [if_neg hn20, if_neg hn30,
      wjk_getD_eq_log_denom P transmitted received Q_i hQ hR hpair hw hj,
      max_eq_left (hden j hj),
      Real.log_div (ne_of_gt (lt_of_lt_of_le (by norm_num) h20))
        (ne_of_gt (lt_of_lt_of_le (by norm_num) (hden j hj)))]

/-- For a nonempty transmitted list and even received list, one BAA step
succeeds and produces a list of `transmitted`'s length whose entries are
nonnegative and sum to exactly `1`. -/
lemma baa_step_spec (P : TransitionModel) (transmitted received : List CodeWord)
    (Q_i : List ℝ) (hT : transmitted ≠ []) (hR : Even received.length) :
    ∃ q, do_full_baa_step P transmitted received Q_i = some q ∧
      q.length = transmitted.length ∧ (∀ x ∈ q, 0 ≤ x) ∧ q.sum = 1 := by
  obtain ⟨w, hw, -, -⟩ := wjk_even_spec P transmitted received Q_i hR
  unfold do_full_baa_step
  rw [hw, Option.some_bind]
  dsimp only
  have hlen : (compute_all_log_alpha_k P transmitted received Q_i w).length =
      transmitted.length := by
    unfold compute_all_log_alpha_k
    simp
  have hne : compute_all_log_alpha_k P transmitted received Q_i w ≠ [] := by
    intro h0
    rw [h0] at hlen
    exact hT (List.length_eq_zero.mp hlen.symm)
  obtain ⟨M, hM⟩ : ∃ M, (compute_all_log_alpha_k P transmitted received Q_i w).max? = some M := by
    cases h : (compute_all_log_alpha_k P transmitted received Q_i w).max? with
    | none => exact absurd (List.max?_eq_none_iff.mp h) hne
    | some M => exact ⟨M, rfl⟩
  rw [hM]
  set alphas := (compute_all_log_alpha_k P transmitted received Q_i w).map
    (fun log_alpha => Real.exp (log_alpha - M)) with halphas
  have hpos : ∀ x ∈ alphas, 0 < x := by
    intro x hx
    obtain ⟨a, -, rfl⟩ := List.mem_map.mp hx
    exact Real.exp_pos _
  have hane : alphas ≠ [] := by
    simp only [halphas, ne_eq, List.map_eq_nil_iff]
    exact hne
  have hSpos : 0 < alphas.sum := List.sum_pos alphas hpos hane
  refine ⟨_, rfl, ?_, ?_, ?_⟩
  · simp only [List.length_map]
    exact hlen
  · intro x hx
    obtain ⟨a, ha, rfl⟩ := List.mem_map.mp hx
    exact le_of_lt (div_pos (hpos a ha) hSpos)
  · have hdiv : (alphas.map (fun alpha => alpha / alphas.sum)).sum = alphas.sum / alphas.sum := by
      simp [div_eq_mul_inv, List.sum_map_mul_right]
    rw [hdiv, div_self (ne_of_gt hSpos)]

/- Concrete transition models used to evaluate the code on small inputs. -/

/-- A concrete asymmetric transition model: codeword `0` is received as `0`
with probability `1` and as `1` with probability `1/2`; all other
probabilities are `0`. -/
noncomputable def Pcex : TransitionModel := fun t r =>
  if t = 0 ∧ r = 0 then 1 else if t = 0 ∧ r = 1 then 1 / 2 else 0

/-- A concrete symmetric transition model: every probability is `1/2`. -/
noncomputable def Phalf : TransitionModel := fun _ _ => 1 / 2

/-- A concrete transition model whose constant probability `1e-60` drives
every denominator below the `1e-50` floor. -/
noncomputable def Pfloor : TransitionModel := fun _ _ => 1e-60

lemma wjk_Pcex_eval :
    compute_all_log_Wjk_den Pcex [0] [0, 1] [1] = some [Real.log (3 / 4), Real.log (3 / 4)] := by
  rw [compute_all_log_Wjk_den]
  norm_num [compute_all_log_Wjk_den, compute_Wjk_den, compute_Pjk_col, Pcex]

lemma wjk_Pfloor_eval :
    compute_all_log_Wjk_den Pfloor [0] [0, 1] [1] = some [Real.log 1e-60, Real.log 1e-60] := by
  rw [compute_all_log_Wjk_den]
  norm_num [compute_all_log_Wjk_den, compute_Wjk_den, compute_Pjk_col, Pfloor]

lemma wjk_Phalf_eval :
    compute_all_log_Wjk_den Phalf [0, 1] [0, 1] [1 / 2, 1 / 2] =
      some [Real.log (1 / 2), Real.log (1 / 2)] := by
  rw [compute_all_log_Wjk_den]
  norm_num [compute_all_log_Wjk_den, compute_Wjk_den, compute_Pjk_col, Phalf]

lemma wjk_den_Pcex_eval : compute_Wjk_den Pcex [0] 0 [1] = 1 := by
  norm_num [compute_Wjk_den, compute_Pjk_col, Pcex]

lemma log_34_ne_zero : Real.log (3 / 4) ≠ 0 := by
  intro h
  rcases Real.log_eq_zero.mp h with h | h | h <;> norm_num at h

/- Claim C1. -/

/-- C1 is false as stated: with transmitted `[0]`, received `[0, 1]`,
`Q = [1]` and the transition model `Pcex`, the received codeword `0` has
marginal probability `W_0 = 1`, so the claimed entry is `log 1 = 0`; the
code instead returns `log((W_0 + W_1)/2) = log(3/4) ≠ 0` in both slots. -/
theorem c1_counterexample :
    compute_all_log_Wjk_den Pcex [0] [0, 1] [1] = some [Real.log (3 / 4), Real.log (3 / 4)] ∧
    compute_Wjk_den Pcex [0] 0 [1] = 1 ∧
    Real.log (3 / 4) ≠ Real.log 1 := by
  refine ⟨wjk_Pcex_eval, wjk_den_Pcex_eval, ?_⟩
  rw [Real.log_one]
  exact log_34_ne_zero

/-- C1 amended: on an even-length received list the denominator aggregator
returns a list of the same length whose entries at positions `2m` and
`2m + 1` both hold `log((W_{2m} + W_{2m+1}) / 2)`, the log of the averaged
pair of marginals (not each received codeword's own marginal). -/
theorem c1_pair_averaged_denominators (P : TransitionModel)
    (transmitted received : List CodeWord) (Q_i : List ℝ) (hR : Even received.length) :
    ∃ l, compute_all_log_Wjk_den P transmitted received Q_i = some l ∧
      l.length = received.length ∧
      ∀ m : ℕ, 2 * m + 1 < received.length →
        l.getD (2 * m) 0 =
          Real.log ((compute_Wjk_den P transmitted (received.getD (2 * m) 0) Q_i +
            compute_Wjk_den P transmitted (received.getD (2 * m + 1) 0) Q_i) / 2) ∧
        l.getD (2 * m + 1) 0 =
          Real.log ((compute_Wjk_den P transmitted (received.getD (2 * m) 0) Q_i +
            compute_Wjk_den P transmitted (received.getD (2 * m + 1) 0) Q_i) / 2) :=
  wjk_even_spec P transmitted received Q_i hR

/-- Witness for C1 amended at transmitted `[0]`, received `[0, 1]`, `Q = [1]`. -/
theorem c1_witness :
    ∃ l, compute_all_log_Wjk_den Pcex [0] [0, 1] [1] = some l ∧
      l.length = 2 ∧
      ∀ m : ℕ, 2 * m + 1 < 2 →
        l.getD (2 * m) 0 =
          Real.log ((compute_Wjk_den Pcex [0] (([0, 1] : List CodeWord).getD (2 * m) 0) [1] +
            compute_Wjk_den Pcex [0] (([0, 1] : List CodeWord).getD (2 * m + 1) 0) [1]) / 2) ∧
        l.getD (2 * m + 1) 0 =
          Real.log ((compute_Wjk_den Pcex [0] (([0, 1] : List CodeWord).getD (2 * m) 0) [1] +
            compute_Wjk_den Pcex [0] (([0, 1] : List CodeWord).getD (2 * m + 1) 0) [1]) / 2) :=
  c1_pair_averaged_denominators Pcex [0] [0, 1] [1] (by decide)

/- Claim C5. -/

/-- C5 is false as stated: splitting received `[0, 1]` into the sub-ranges
`[0]` and `[1]` (a partition whose concatenation reproduces the original
order), each sub-range call steps the stride-2 iterator out of bounds
(`none`), while the full call succeeds, so no concatenation of sub-range
results reproduces the full result. -/
theorem c5_counterexample :
    compute_all_log_Wjk_den Pcex [0] [0] [1] = none ∧
    compute_all_log_Wjk_den Pcex [0] [1] [1] = none ∧
    compute_all_log_Wjk_den Pcex [0] [0, 1] [1] = some [Real.log (3 / 4), Real.log (3 / 4)] ∧
    ¬ ∃ l1 l2 : List ℝ, compute_all_log_Wjk_den Pcex [0] [0] [1] = some l1 ∧
      compute_all_log_Wjk_den Pcex [0] [1] [1] = some l2 ∧
      compute_all_log_Wjk_den Pcex [0] [0, 1] [1] = some (l1 ++ l2) := by
  have h0 : compute_all_log_Wjk_den Pcex [0] [0] [1] = none := by
    rw [compute_all_log_Wjk_den]
  have h1 : compute_all_log_Wjk_den Pcex [0] [1] [1] = none := by
    rw [compute_all_log_Wjk_den]
  refine ⟨h0, h1, wjk_Pcex_eval, ?_⟩
  rintro ⟨l1, l2, hl1, -, -⟩
  rw [h0] at hl1
  exact Option.noConfusion hl1

/-- C5 amended: the partition rule holds for splits at even boundaries.
Splitting received as `A ++ B` with `A` of even length, the full result is
the concatenation of the two independent sub-range results (in the `Option`
monad; a sub-range of odd length makes both sides undefined). -/
theorem c5_even_partition (P : TransitionModel) (transmitted : List CodeWord)
    (A B : List CodeWord) (Q_i : List ℝ) (hA : Even A.length) :
    compute_all_log_Wjk_den P transmitted (A ++ B) Q_i =
      (compute_all_log_Wjk_den P transmitted A Q_i).bind (fun l1 =>
        (compute_all_log_Wjk_den P transmitted B Q_i).map (fun l2 => l1 ++ l2)) :=
  wjk_append P transmitted A B Q_i hA

/-- Witness for C5 amended: the split of `[0, 1, 2, 3]` into `[0, 1]` and
`[2, 3]`. -/
theorem c5_witness :
    compute_all_log_Wjk_den Pcex [0] [0, 1, 2, 3] [1] =
      (compute_all_log_Wjk_den Pcex [0] [0, 1] [1]).bind (fun l1 =>
        (compute_all_log_Wjk_den Pcex [0] [2, 3] [1]).map (fun l2 => l1 ++ l2)) :=
  c5_even_partition Pcex [0] [0, 1] [2, 3] [1] (by decide)

/- Claim C10. -/

/-- C10: the function `compute_all_log_Wjk_den` is defined (does not overrun the received
iterator) exactly on even-length received lists, and on success it writes
each computed entry twice: `result[2m] = result[2m+1]` for every pair index. -/
theorem c10_stride_two_domain_and_duplication (P : TransitionModel)
    (transmitted received : List CodeWord) (Q_i : List ℝ) :
    ((compute_all_log_Wjk_den P transmitted received Q_i).isSome ↔ Even received.length) ∧
    ∀ l, compute_all_log_Wjk_den P transmitted received Q_i = some l →
      l.length = received.length ∧
      ∀ m : ℕ, 2 * m + 1 < l.length → l.getD (2 * m) 0 = l.getD (2 * m + 1) 0 := by
  constructor
  · constructor
    · intro hs
      by_contra hodd
      rw [wjk_none P transmitted received Q_i hodd] at hs
      simp at hs
    · intro he
      obtain ⟨l, hl, -, -⟩ := wjk_even_spec P transmitted received Q_i he
      rw [hl]
      exact Option.isSome_some
  · intro l hl
    have he : Even received.length := by
      by_contra hodd
      rw [wjk_none P transmitted received Q_i hodd] at hl
      exact Option.noConfusion hl
    obtain ⟨l', hl', hlen, hspec⟩ := wjk_even_spec P transmitted received Q_i he
    rw [hl] at hl'
    obtain rfl : l = l' := by injection hl'
    refine ⟨hlen, fun m hm => ?_⟩
    rw [hlen] at hm
    obtain ⟨h1, h2⟩ := hspec m hm
    rw [h1, h2]

/-- Witness for C10: at received `[0, 1]` the result exists with duplicated
entries, and at received `[0]` (odd length) the iterator overruns. -/
theorem c10_witness :
    ((compute_all_log_Wjk_den Pcex [0] [0, 1] [1]).isSome ↔ Even 2) ∧
    ∃ l, compute_all_log_Wjk_den Pcex [0] [0, 1] [1] = some l ∧
      l.length = 2 ∧ l.getD 0 0 = l.getD 1 0 := by
  obtain ⟨hiff, hall⟩ := c10_stride_two_domain_and_duplication Pcex [0] [0, 1] [1]
  refine ⟨hiff, ?_⟩
  cases hl : compute_all_log_Wjk_den Pcex [0] [0, 1] [1] with
  | none =>
    rw [hl] at hiff
    exact absurd ((by decide : Even 2)) (by simpa using hiff.mpr)
  | some l =>
    obtain ⟨hlen, hdup⟩ := hall l hl
    exact ⟨l, rfl, hlen, by simpa using hdup 0 (by rw [hlen]; decide)⟩

lemma rate_Pcex_dense : compute_rate Pcex [0] [0, 1] [1] = 0 := by
  rw [compute_rate_eq_sum]
  have hden0 : denom Pcex [0] [0, 1] [1] 0 = 1 := by
    norm_num [denom, Pcex, Finset.sum_range_succ]
  have hden1 : denom Pcex [0] [0, 1] [1] 1 = 1 / 2 := by
    norm_num [denom, Pcex, Finset.sum_range_succ]
  norm_num [denseTerm, Pcex, Finset.sum_range_succ, hden0, hden1,
    max_eq_left, Real.log_one]

lemma rate_Pcex_eff :
    compute_bit_rate_efficient Pcex [0] [0, 1] [Real.log (3 / 4), Real.log (3 / 4)] [1] =
      (Real.log 1 - Real.log (3 / 4)) + 1 / 2 * (Real.log (1 / 2) - Real.log (3 / 4)) := by
  rw [compute_bit_rate_efficient_eq_sum]
  norm_num [effTerm, Pcex, Finset.sum_range_succ]

lemma rate_Pcex_eff_ne_zero :
    compute_bit_rate_efficient Pcex [0] [0, 1] [Real.log (3 / 4), Real.log (3 / 4)] [1] ≠ 0 := by
  rw [rate_Pcex_eff, Real.log_one]
  intro h
  have h3 : Real.log (1 / 2) = Real.log (3 / 4) + (Real.log (3 / 4) + Real.log (3 / 4)) := by
    linarith
  have h2 : (1 / 2 : ℝ) = 3 / 4 * (3 / 4 * (3 / 4)) := by
    have he := congrArg Real.exp h3
    rwa [Real.exp_log (by norm_num : (0 : ℝ) < 1 / 2), Real.exp_add, Real.exp_add,
      Real.exp_log (by norm_num : (0 : ℝ) < 3 / 4)] at he
  norm_num at h2

/- Claim C2. -/

/-- C2 is false as stated: with transmitted `[0]`, received `[0, 1]`,
`Q = [1]` and the transition model `Pcex`, the dense reference rate is `0`
(each term's denominator equals its own probability), while the row-major
rate fed with the pair-averaged log denominators from
`compute_all_log_Wjk_den` is nonzero. -/
theorem c2_counterexample :
    compute_all_log_Wjk_den Pcex [0] [0, 1] [1] = some [Real.log (3 / 4), Real.log (3 / 4)] ∧
    compute_rate Pcex [0] [0, 1] [1] = 0 ∧
    compute_bit_rate_efficient Pcex [0] [0, 1] [Real.log (3 / 4), Real.log (3 / 4)] [1] ≠
      compute_rate Pcex [0] [0, 1] [1] := by
  refine ⟨wjk_Pcex_eval, rate_Pcex_dense, ?_⟩
  rw [rate_Pcex_dense]
  exact rate_Pcex_eff_ne_zero

/-- C2 amended: the two rate computations agree exactly whenever `Q` aligns
with `transmitted`, `received` has even length, every adjacent pair of
received codewords has equal denominators (the symmetric layout the
pair-averaging assumes), no transition probability falls in the dead band
`[1e-30, 1e-20)` between the two skip thresholds, and every denominator is
at or above the `1e-50` floor. -/
theorem c2_rate_equivalence (P : TransitionModel) (transmitted received : List CodeWord)
    (Q_i w : List ℝ)
    (hQ : Q_i.length = transmitted.length) (hR : Even received.length)
    (hw : compute_all_log_Wjk_den P transmitted received Q_i = some w)
    (hpair : ∀ m : ℕ, 2 * m + 1 < received.length →
      denom P transmitted received Q_i (2 * m) = denom P transmitted received Q_i (2 * m + 1))
    (heps : ∀ i j : ℕ, i < transmitted.length → j < received.length →
      P (transmitted.getD i 0) (received.getD j 0) < 1e-30 ∨
        1e-20 ≤ P (transmitted.getD i 0) (received.getD j 0))
    (hden : ∀ j : ℕ, j < received.length → 1e-50 ≤ denom P transmitted received Q_i j) :
    compute_bit_rate_efficient P transmitted received w Q_i =
      compute_rate P transmitted received Q_i :=
  rate_eff_eq_rate_dense P transmitted received Q_i w hQ hR hw hpair heps hden

/-- Witness for C2 amended: the symmetric all-`1/2` channel on two
transmitted and two received codewords with the uniform distribution. -/
theorem c2_witness :
    compute_bit_rate_efficient Phalf [0, 1] [0, 1] [Real.log (1 / 2), Real.log (1 / 2)]
      [1 / 2, 1 / 2] = compute_rate Phalf [0, 1] [0, 1] [1 / 2, 1 / 2] := by
  have hden : ∀ j : ℕ, denom Phalf [0, 1] [0, 1] [1 / 2, 1 / 2] j = 1 / 2 := by
    intro j
    norm_num [denom, Phalf, Finset.sum_range_succ]
  exact c2_rate_equivalence Phalf [0, 1] [0, 1] [1 / 2, 1 / 2]
    [Real.log (1 / 2), Real.log (1 / 2)] (by decide) (by decide) wjk_Phalf_eval
    (fun m _ => by rw [hden, hden])
    (fun i j _ _ => Or.inr (by norm_num [Phalf]))
    (fun j _ => by rw [hden]; norm_num)

/- Claim C3. -/

/-- C3: for a nonempty transmitted alphabet and an even-length received
alphabet (the domain on which the step's denominator pass is defined), the
BAA step always returns a distribution: every entry is nonnegative and the
entries sum to exactly `1` in the real model; no other result is ever
produced. -/
theorem c3_normalization_invariant (P : TransitionModel)
    (transmitted received : List CodeWord) (Q_i : List ℝ)
    (hT : transmitted ≠ []) (hR : Even received.length) :
    ∃ q, do_full_baa_step P transmitted received Q_i = some q ∧
      q.length = transmitted.length ∧ (∀ x ∈ q, 0 ≤ x) ∧ q.sum = 1 :=
  baa_step_spec P transmitted received Q_i hT hR

/-- Witness for C3 at the symmetric all-`1/2` channel. -/
theorem c3_witness :
    ∃ q, do_full_baa_step Phalf [0] [0, 1] [1] = some q ∧
      q.length = 1 ∧ (∀ x ∈ q, 0 ≤ x) ∧ q.sum = 1 :=
  c3_normalization_invariant Phalf [0] [0, 1] [1] (by decide) (by decide)

/- Claim C6. -/

/-- C6: the `i`-th log-alpha equals the sum over received indices `j` of
`P(i,j) * (log Q_old[i] + log P(i,j) - log_W_den[j])`, with every term whose
transition probability is below `1e-12` skipped, contributing exactly `0`. -/
theorem c6_log_alpha_formula (P : TransitionModel) (transmitted received : List CodeWord)
    (Q_i log_W_jk_den : List ℝ) (i : ℕ) (hi : i < transmitted.length) :
    (compute_all_log_alpha_k P transmitted received Q_i log_W_jk_den).getD i 0 =
      ∑ j ∈ Finset.range received.length,
        if P (transmitted.getD i 0) (received.getD j 0) < 1e-12 then 0
        else P (transmitted.getD i 0) (received.getD j 0) *
          (Real.log (Q_i.getD i 0) + Real.log (P (transmitted.getD i 0) (received.getD j 0)) -
            log_W_jk_den.getD j 0) := by
  rw [compute_all_log_alpha_k_getD P transmitted received Q_i log_W_jk_den hi,
    compute_log_alpha_k_eq_sum]
  rfl

/-- Witness for C6 at transmitted `[0]`, received `[0, 1]`, `Q = [1]`,
log denominators `[0, 0]`. -/
theorem c6_witness :
    (compute_all_log_alpha_k Pcex [0] [0, 1] [1] [0, 0]).getD 0 0 =
      ∑ j ∈ Finset.range 2,
        if Pcex 0 (([0, 1] : List CodeWord).getD j 0) < 1e-12 then 0
        else Pcex 0 (([0, 1] : List CodeWord).getD j 0) *
          (Real.log 1 + Real.log (Pcex 0 (([0, 1] : List CodeWord).getD j 0)) -
            ([0, 0] : List ℝ).getD j 0) :=
  c6_log_alpha_formula Pcex [0] [0, 1] [1] [0, 0] 0 (by decide)

/- Claim C8. -/

/-- C8: a transition probability that is exactly `0` falls below every skip
threshold, so its term in the alpha computation and in both rate
computations is exactly `0`, and each full computation equals the sum with
that index pair deleted; no log of `0` enters any surviving term. -/
theorem c8_zero_probability_skip (P : TransitionModel) (transmitted received : List CodeWord)
    (log_W_jk_den Q_i : List ℝ) (i0 j0 : ℕ)
    (hi : i0 < transmitted.length) (hj : j0 < received.length)
    (hP0 : P (transmitted.getD i0 0) (received.getD j0 0) = 0) :
    alphaTerm P (transmitted.getD i0 0) received (Q_i.getD i0 0) log_W_jk_den j0 = 0 ∧
    effTerm P transmitted received log_W_jk_den Q_i i0 j0 = 0 ∧
    denseTerm P transmitted received Q_i i0 j0 = 0 ∧
    compute_log_alpha_k P (transmitted.getD i0 0) received (Q_i.getD i0 0) log_W_jk_den =
      ∑ j ∈ (Finset.range received.length).erase j0,
        alphaTerm P (transmitted.getD i0 0) received (Q_i.getD i0 0) log_W_jk_den j ∧
    compute_bit_rate_efficient P transmitted received log_W_jk_den Q_i =
      ∑ p ∈ ((Finset.range transmitted.length) ×ˢ (Finset.range received.length)).erase (i0, j0),
        effTerm P transmitted received log_W_jk_den Q_i p.1 p.2 ∧
    compute_rate P transmitted received Q_i =
      ∑ p ∈ ((Finset.range transmitted.length) ×ˢ (Finset.range received.length)).erase (i0, j0),
        denseTerm P transmitted received Q_i p.1 p.2 := by
  have ha : alphaTerm P (transmitted.getD i0 0) received (Q_i.getD i0 0) log_W_jk_den j0 = 0 := by
    unfold alphaTerm
    rw [hP0, if_pos (by norm_num : (0 : ℝ) < 1e-12)]
  have he : effTerm P transmitted received log_W_jk_den Q_i i0 j0 = 0 := by
    unfold effTerm
    rw [hP0, if_pos (by norm_num : (0 : ℝ) < 1e-20)]
  have hd : denseTerm P transmitted received Q_i i0 j0 = 0 := by
    unfold denseTerm
    rw [hP0, if_pos (by norm_num : (0 : ℝ) < 1e-30)]
  refine ⟨ha, he, hd, ?_, ?_, ?_⟩
  · rw [compute_log_alpha_k_eq_sum]
    exact (Finset.sum_erase _ ha).symm
  · rw [compute_bit_rate_efficient_eq_sum, ← Finset.sum_product']
    exact (sum_product_erase _ _ _ i0 j0 he).symm
  · rw [compute_rate_eq_sum, ← Finset.sum_product']
    exact (sum_product_erase _ _ _ i0 j0 hd).symm

/-- Witness for C8: `Pcex 1 0 = 0` at transmitted index `1`, received
index `0`. -/
theorem c8_witness :
    alphaTerm Pcex 1 [0, 1] (1 / 2) [0, 0] 0 = 0 ∧
    effTerm Pcex [0, 1] [0, 1] [0, 0] [1 / 2, 1 / 2] 1 0 = 0 ∧
    denseTerm Pcex [0, 1] [0, 1] [1 / 2, 1 / 2] 1 0 = 0 ∧
    compute_log_alpha_k Pcex 1 [0, 1] (1 / 2) [0, 0] =
      ∑ j ∈ (Finset.range 2).erase 0, alphaTerm Pcex 1 [0, 1] (1 / 2) [0, 0] j ∧
    compute_bit_rate_efficient Pcex [0, 1] [0, 1] [0, 0] [1 / 2, 1 / 2] =
      ∑ p ∈ ((Finset.range 2) ×ˢ (Finset.range 2)).erase (1, 0),
        effTerm Pcex [0, 1] [0, 1] [0, 0] [1 / 2, 1 / 2] p.1 p.2 ∧
    compute_rate Pcex [0, 1] [0, 1] [1 / 2, 1 / 2] =
      ∑ p ∈ ((Finset.range 2) ×ˢ (Finset.range 2)).erase (1, 0),
        denseTerm Pcex [0, 1] [0, 1] [1 / 2, 1 / 2] p.1 p.2 :=
  c8_zero_probability_skip Pcex [0, 1] [0, 1] [0, 0] [1 / 2, 1 / 2] 1 0
    (by decide) (by decide) (by norm_num [Pcex])

/- Claim C9. -/

/-- A transition model where transmitted codeword `0` reaches every received
codeword with probability `1` and codeword `1` with probability `0`. -/
noncomputable def Pmix : TransitionModel := fun t _ => if t = 0 then 1 else 0

/-- A distribution putting mass `1e-60` on codeword `0`, driving every
denominator below the `1e-50` floor while keeping a surviving rate term. -/
noncomputable def Qtiny : List ℝ := [1e-60, 1 - 1e-60]

lemma wjk_Pmix_eval :
    compute_all_log_Wjk_den Pmix [0, 1] [0, 1] Qtiny = some [Real.log 1e-60, Real.log 1e-60] := by
  rw [compute_all_log_Wjk_den]
  norm_num [compute_all_log_Wjk_den, compute_Wjk_den, compute_Pjk_col, Pmix, Qtiny]

lemma rate_Pmix_eff (c : ℝ) :
    compute_bit_rate_efficient Pmix [0, 1] [0, 1] [c, c] Qtiny =
      2 * (1e-60 * (Real.log 1 - c)) := by
  rw [compute_bit_rate_efficient_eq_sum]
  norm_num [effTerm, Pmix, Qtiny, Finset.sum_range_succ]
  ring

/-- C9 is false as stated: with `Pmix` and `Qtiny` every denominator is
`1e-60`, below the `1e-50` floor, yet the efficient path takes
`log(1e-60)` unclamped — the log denominators produced by
`compute_all_log_Wjk_den` and consumed by `compute_bit_rate_efficient` are
not floored, so the resulting rate differs from the rate a `1e-50` clamp
would give. -/
theorem c9_counterexample :
    compute_all_log_Wjk_den Pmix [0, 1] [0, 1] Qtiny = some [Real.log 1e-60, Real.log 1e-60] ∧
    denom Pmix [0, 1] [0, 1] Qtiny 0 = 1e-60 ∧
    (1e-60 : ℝ) < 1e-50 ∧
    Real.log (1e-60 : ℝ) ≠ Real.log (1e-50 : ℝ) ∧
    compute_bit_rate_efficient Pmix [0, 1] [0, 1] [Real.log 1e-60, Real.log 1e-60] Qtiny ≠
      compute_bit_rate_efficient Pmix [0, 1] [0, 1] [Real.log 1e-50, Real.log 1e-50] Qtiny := by
  have hlt : Real.log (1e-60 : ℝ) < Real.log (1e-50 : ℝ) :=
    Real.log_lt_log (by norm_num) (by norm_num)
  refine ⟨wjk_Pmix_eval, ?_, by norm_num, ne_of_lt hlt, ?_⟩
  · norm_num [denom, Pmix, Qtiny, Finset.sum_range_succ]
  · rw [rate_Pmix_eff, rate_Pmix_eff]
    intro h
    have : Real.log (1e-60 : ℝ) = Real.log (1e-50 : ℝ) := by
      have h60 : (1e-60 : ℝ) ≠ 0 := by norm_num
      nlinarith [h]
    exact ne_of_lt hlt this

/-- C9 amended: the dense reference `compute_rate` does clamp every
denominator below `1e-50` to the floor before taking its log (so every log
argument has a denominator of at least `1e-50`); the efficient path applies
no such flooring to its precomputed log denominators. -/
theorem c9_dense_floor (P : TransitionModel) (transmitted received : List CodeWord)
    (Q_i : List ℝ) :
    compute_rate P transmitted received Q_i =
      (∑ k ∈ Finset.range transmitted.length, ∑ j ∈ Finset.range received.length,
        if P (transmitted.getD k 0) (received.getD j 0) < 1e-30 then 0
        else Q_i.getD k 0 * P (transmitted.getD k 0) (received.getD j 0) *
          Real.log (P (transmitted.getD k 0) (received.getD j 0) /
            max (denom P transmitted received Q_i j) 1e-50)) ∧
    ∀ j : ℕ, 1e-50 ≤ max (denom P transmitted received Q_i j) 1e-50 := by
  refine ⟨?_, fun j => le_max_right _ _⟩
  rw [compute_rate_eq_sum]
  rfl

end BitBAA
